import Mathlib

/-!
Verification of the girc/geventirc IRC client library.

Each component used by the claims is shallowly embedded from the Python
source into Lean:

* the line codec (`decode`, `Message.encode`) from geventirc/message.py;
* the match-spec command criterion from geventirc/message.py `match`;
* the ISUPPORT token parser and server-property lookup from
  geventirc/message.py `ISupport.properties` and girc/server_properties.py;
* the per-channel user list from geventirc/userlist.py;
* the handler dependency graph, cycle check and receive loop from
  girc/client.py;
* the startup send-queue gating from girc/client.py `Client.start`;
* the shared `users_ready` class attribute from girc/channel.py.

Python strings are modelled as `List Char` (`Str`) where character-level
splitting matters, and as `String` elsewhere.  Python dicts that the code
only reads deterministically are modelled as association lists or fixed
enumerations; every such choice is noted at the definition it affects.
-/

abbrev Str := List Char

instance {ε α : Type} [DecidableEq ε] [DecidableEq α] : DecidableEq (Except ε α) :=
  fun a b =>
    match a, b with
    | .ok x, .ok y =>
      if h : x = y then isTrue (by rw [h]) else isFalse (by intro hh; cases hh; exact h rfl)
    | .error x, .error y =>
      if h : x = y then isTrue (by rw [h]) else isFalse (by intro hh; cases hh; exact h rfl)
    | .ok _, .error _ => isFalse (by intro h; cases h)
    | .error _, .ok _ => isFalse (by intro h; cases h)

/-- Helper to write `List Char` literals. -/
def str (s : String) : Str := s.data

/-! ## Line codec (geventirc/message.py) -/

/-- Failure modes of `decode`.  `invalid` models `InvalidMessage(data, message)`;
`indexError` models an uncaught Python `IndexError` (raised by `words[0]` when the
token list is empty). -/
inductive DecodeErr
  | invalid (data : Str) (reason : String)
  | indexError
deriving DecidableEq, Repr

/-- A parsed IRC message: the fields of geventirc `Message.__init__`
(`sender`, `user`, `host`, `command`, `params`).  Python `None` is `none`. -/
structure Message where
  sender : Option Str
  user : Option Str
  host : Option Str
  command : Str
  params : List Str
deriving DecidableEq, Repr

/-- `line.strip('\r\n')`: drop any leading and trailing `'\r'`/`'\n'` characters. -/
def pyStripCRLF (l : Str) : Str :=
  ((l.dropWhile fun c => c = '\r' ∨ c = '\n').reverse.dropWhile
    fun c => c = '\r' ∨ c = '\n').reverse

/-- The `for c in '\r\n\0': if c in line` check of `decode`. -/
def hasIllegal (l : Str) : Bool :=
  l.any fun c => c = '\r' ∨ c = '\n' ∨ c = '\x00'

/-- `filter(None, line.split(' '))`: split on every single space, drop empty runs. -/
def pyWords (l : Str) : List Str :=
  (l.splitOn ' ').filter fun w => w ≠ []

/-- `s.split(c, 1)` under the guarantee that `c` occurs in `s`: the parts
before and after the first occurrence of `c`. -/
def pySplit1 (c : Char) : Str → Str × Str
  | [] => ([], [])
  | x :: xs =>
    if x = c then ([], xs)
    else
      let p := pySplit1 c xs
      (x :: p.1, p.2)

/-- ASCII upper-casing of a character; the inputs relevant to the codec are ASCII,
where Python `str.upper` agrees with this. -/
def asciiUpper (c : Char) : Char :=
  if 'a' ≤ c ∧ c ≤ 'z' then Char.ofNat (c.toNat - 32) else c

def upperStr (l : Str) : Str := l.map asciiUpper

/-- The parameter loop of `decode`: plain tokens until one starts with `':'`,
which makes everything from it on (rejoined with single spaces, leading `':'`
removed) the trailing parameter. -/
def parseParams : List Str → List Str
  | [] => []
  | w :: ws =>
    if w.head? = some ':' then [(List.intercalate [' '] (w :: ws)).drop 1]
    else w :: parseParams ws

/-- The prefix block of `decode`: split the prefix body at the first `'@'` (host)
if present, then the remainder at the first `'!'` (user); what is left is the sender.
Returns `(sender, user, host)`. -/
def parsePfx (p0 : Str) : Option Str × Option Str × Option Str :=
  let s1 :=
    if p0.contains '@' then
      let p := pySplit1 '@' p0
      (p.1, some p.2)
    else (p0, (none : Option Str))
  let s2 :=
    if s1.1.contains '!' then
      let p := pySplit1 '!' s1.1
      (p.1, some p.2)
    else (s1.1, (none : Option Str))
  (some s2.1, s2.2, s1.2)

/-- The token-level part of `decode`, after stripping and the illegal-character
check: optional prefix token, command token (upper-cased), parameter tokens.
`l` is the stripped line, used as the payload of `InvalidMessage`. -/
def decodeWords (l : Str) : List Str → Except DecodeErr Message
  | [] =>
    -- Python: `words[0].startswith(':')` raises IndexError on an empty token list
    Except.error DecodeErr.indexError
  | w0 :: rest =>
    if w0.head? = some ':' then
      let pr := parsePfx (w0.drop 1)
      match rest with
      | [] => Except.error (DecodeErr.invalid l "no command given")
      | c :: ps => Except.ok ⟨pr.1, pr.2.1, pr.2.2, upperStr c, parseParams ps⟩
    else
      Except.ok ⟨none, none, none, upperStr w0, parseParams rest⟩

/-- `decode(line, client)` from geventirc/message.py.  The `client` argument is
unused at parse time (it is only consulted by lazy accessors), so it is omitted.
The Python generic `Message` constructor reached from `decode` cannot fail, so
the final `try`/`except` wrapper adds no extra failure case here. -/
def decode (line : Str) : Except DecodeErr Message :=
  let l := pyStripCRLF line
  if hasIllegal l then
    Except.error (DecodeErr.invalid l "Illegal character")
  else
    decodeWords l (pyWords l)

/-- Python truthiness of an optional string field: `None` and `''` are falsy. -/
def truthy : Option Str → Bool
  | none => false
  | some s => s ≠ []

/-- The prefix token `':' sender ['!' user] ['@' host]` built by `Message.encode`. -/
def pfxTok (m : Message) : Str :=
  (':' :: m.sender.getD [])
    ++ (if truthy m.user then '!' :: m.user.getD [] else [])
    ++ (if truthy m.host then '@' :: m.host.getD [] else [])

/-- The `if self.sender or self.user or self.host` emission test of `Message.encode`. -/
def pfxEmitted (m : Message) : Bool :=
  truthy m.sender || truthy m.user || truthy m.host

/-- The space-separated parts `Message.encode` joins: optional prefix token, command,
all parameters but the last verbatim, and the last parameter with a leading `':'`. -/
def encodeParts (m : Message) : List Str :=
  (if pfxEmitted m then [pfxTok m, m.command] else [m.command])
    ++ match m.params.getLast? with
       | none => []
       | some lastP => m.params.dropLast ++ [':' :: lastP]

/-- `Message.encode` from geventirc/message.py: optional `':'`-prefix part,
command, plain parameters, and the last parameter always emitted with a
leading `':'`; parts joined with single spaces. -/
def Message.encode (m : Message) : Str :=
  List.intercalate [' '] (encodeParts m)

/-- A single-token field: nonempty and free of space, CR, LF and NUL. -/
def tokenOk (l : Str) : Bool :=
  l ≠ [] && l.all fun c => c ≠ ' ' && c ≠ '\r' && c ≠ '\n' && c ≠ '\x00'

/-- A prefix field (`sender`, `user` or `host`): absent, or a nonempty string free
of space, `'@'`, `'!'`, CR, LF and NUL.  (`some []` is excluded: the Python code
treats `''` like `None` at encode time, so the two are identified as `none`.) -/
def pfxFieldOk : Option Str → Bool
  | none => true
  | some s => s ≠ [] && s.all fun c => c ≠ ' ' && c ≠ '@' && c ≠ '!' && c ≠ '\r' && c ≠ '\n' && c ≠ '\x00'

/-- No two consecutive spaces and no trailing space. -/
def noSpaceRun : Str → Bool
  | [] => true
  | [c] => c ≠ ' '
  | c :: c' :: r => !(c = ' ' && c' = ' ') && noSpaceRun (c' :: r)

/-- Well-formedness of a message for the byte-for-byte round trip: the command is a
single nonempty upper-case-invariant token not starting with `':'`; prefix fields are
absent or nonempty and free of space/`'@'`/`'!'`; every parameter but the last is a
nonempty token not starting with `':'`; the last parameter (which may be empty and may
contain single spaces) has no two consecutive spaces and no trailing space; and no field
contains CR, LF or NUL. -/
def wellFormed (m : Message) : Bool :=
  tokenOk m.command
    && (m.command.head? ≠ some ':')
    && (upperStr m.command = m.command)
    && pfxFieldOk m.sender && pfxFieldOk m.user && pfxFieldOk m.host
    && (m.params.dropLast.all fun p => tokenOk p && (p.head? ≠ some ':'))
    && (m.params.getLast?.all fun lastP =>
          noSpaceRun lastP && lastP.all fun c => c ≠ '\r' && c ≠ '\n' && c ≠ '\x00')

/-- The message `decode` recovers from the encoding of a well-formed message: the
same message, except that when a prefix part was emitted on behalf of a user/host
field alone, the absent sender decodes as the empty string. -/
def decodedOf (m : Message) : Message :=
  ⟨if pfxEmitted m then some (m.sender.getD []) else none,
    m.user, m.host, m.command, m.params⟩

/-- The prefix part of `encodeParts` as a (possibly empty) list of tokens. -/
def pfxList (m : Message) : List Str :=
  if pfxEmitted m then [pfxTok m] else []

/-! ## Match-spec command criterion (geventirc/message.py `match`, lines 487-503) -/

/-- One element of a `command=` match argument after the Command-subclass step:
the loop first replaces a Command subclass by its `command` class attribute, which
is a string (the upper-cased class name) for textual commands or an int for
numerics (`ISupport.command`), so an element is a string or an int. -/
inductive CmdSpec
  | strc (v : Str)
  | intc (v : Int)
deriving DecidableEq, Repr

/-- Python `int(s)` on a string: optional surrounding spaces, optional sign, then
at least one digit; `None` models the `ValueError` branch. -/
def digitsToNat? : Str → Option Nat
  | [] => none
  | l =>
    if l.all fun c => '0' ≤ c ∧ c ≤ '9' then
      some (l.foldl (fun n c => 10 * n + (c.toNat - 48)) 0)
    else none

def pyInt? (s : Str) : Option Int :=
  let t := ((s.dropWhile (· = ' ')).reverse.dropWhile (· = ' ')).reverse
  match t with
  | '+' :: r => (digitsToNat? r).map Int.ofNat
  | '-' :: r => (digitsToNat? r).map fun n => -(n : Int)
  | r => (digitsToNat? r).map Int.ofNat

/-- `int_equals(a, b)` from geventirc/common.py: equal when both cast to int,
false when either cast raises. -/
def int_equals (a : CmdSpec) (msgCmd : Str) : Bool :=
  let ai := match a with
    | .intc v => some v
    | .strc v => pyInt? v
  match ai, pyInt? msgCmd with
  | some x, some y => x = y
  | _, _ => false

/-- `str(command)` for a command spec element. -/
def cmdSpecStr : CmdSpec → Str
  | .strc v => v
  | .intc v => (toString v).data

/-- The command loop of `match` (geventirc/message.py lines 493-503): the
message command is checked against EVERY element of the list; an element passes
by numeric equality (`continue`) or string equality, and any element that fails
the string comparison makes the whole match return False. -/
def commandMatches : List CmdSpec → Str → Bool
  | [], _ => true
  | c :: cs, msgCmd =>
    if int_equals c msgCmd then commandMatches cs msgCmd
    else if upperStr (cmdSpecStr c) = msgCmd then commandMatches cs msgCmd
    else false

/-! ## ISUPPORT merge (geventirc/message.py `ISupport.properties`) and
server-property lookup (girc/server_properties.py) -/

/-- A server-property value: a string, Python `True` (bare `KEY` or `KEY=`), or
Python `None` (`-KEY`, an unset marker). -/
inductive PropVal
  | strv (v : Str)
  | truev
  | nonev
deriving DecidableEq, Repr

/-- `result[key] = value` on a dict modelled as an association list (first
occurrence is the binding; insertion replaces in place or appends). -/
def dictInsert (k : Str) (v : PropVal) : List (Str × PropVal) → List (Str × PropVal)
  | [] => [(k, v)]
  | (k', v') :: rest => if k' = k then (k, v) :: rest else (k', v') :: dictInsert k v rest

def dictGet (k : Str) : List (Str × PropVal) → Option PropVal
  | [] => none
  | (k', v) :: rest => if k' = k then some v else dictGet k rest

/-- `ISupport.properties`: drop the leading nick parameter and the trailing
"are supported by this server" parameter, then for each arg: split at the first
`'='` if any (else value is `''`); an empty value means `True`; a leading `'-'`
strips to the key and forces the value to `None`. -/
def isupportProperties (params : List Str) : List (Str × PropVal) :=
  let args := (params.drop 1).dropLast
  args.foldl
    (fun result arg =>
      let kv := if arg.contains '=' then pySplit1 '=' arg else (arg, [])
      let v : PropVal := if kv.2 = [] then PropVal.truev else PropVal.strv kv.2
      let kv2 := if kv.1.head? = some '-' then (kv.1.drop 1, PropVal.nonev) else (kv.1, v)
      dictInsert kv2.1 kv2.2 result)
    []

/-- `dict.update`: insert every binding of `upd`, in order, into `base`. -/
def dictUpdate (base upd : List (Str × PropVal)) : List (Str × PropVal) :=
  upd.foldl (fun acc kv => dictInsert kv.1 kv.2 acc) base

/-- The `defaults` dict of girc `ServerProperties` (the Python literal lists
CHANMODES twice; the dict keeps the last value, 'b,k,l,imnst'). -/
def serverPropsDefaults : List (Str × PropVal) :=
  [(str "CHANTYPES", PropVal.strv (str "#")),
   (str "PREFIX", PropVal.strv (str "(ov)@+")),
   (str "CHANMODES", PropVal.strv (str "b,k,l,imnst"))]

/-- `ServerProperties.__getitem__`: a present key returns its stored value, even
when that value is the `None` left by a `-KEY` token; only an absent key falls
back to the defaults (an absent default is a `KeyError`, modelled as `none`). -/
def serverPropsGet (props : List (Str × PropVal)) (item : Str) : Option PropVal :=
  match dictGet item props with
  | some v => some v
  | none => dictGet item serverPropsDefaults

/-! ## Startup send-queue gating (girc/client.py `Client.start`) -/

/-- Modelled from the spec: girc/chunkprioqueue.py (`ChunkedPriorityQueue`) is not
under src/.  Spec section 4.4: while the per-queue upper priority limit is set to L,
`put` drops or blocks any message whose priority is greater than L; so a message of
priority p is admitted iff p ≤ L.  `none` is an unlimited queue. -/
def queueAdmits (limit : Option Int) (p : Int) : Bool :=
  match limit with
  | none => true
  | some l => p ≤ l

/-- The limit `Client.start` holds while registering:
`with self._nick_lock, self._send_queue.limit_to(-1):` (girc/client.py line 304). -/
def startRegistrationLimit : Int := -1

/-- The priority at which `start` sends PASS, NICK and USER (girc/client.py
lines 327-330: `send(priority=-2)`). -/
def registrationPriority : Int := -2

/-- The priority of automatic PONG replies (girc/client.py `on_ping`:
`Pong(...).send(priority=-1)`). -/
def pongPriority : Int := -1

/-! ## Shared users_ready class attribute (girc/channel.py) -/

/-- A girc `Channel` object as far as `users_ready` is concerned: its name and
its instance-dict slot for `users_ready`.  The source never assigns
`self.users_ready = ...`, it only calls `.set()`/`.clear()`/`.wait()` on the
object found by attribute lookup, so the slot stays empty. -/
structure ChannelObj where
  name : Str
  usersReadyInstance : Option Bool
deriving DecidableEq, Repr

/-- The world of all `Channel` instances plus the state of the single class-level
`gevent.event.Event` created once at class-definition time
(`users_ready = gevent.event.Event()` in the class body). -/
structure ChanWorld where
  classUsersReady : Bool
  channels : List ChannelObj
deriving DecidableEq, Repr

/-- Python attribute lookup for `channel.users_ready.is_set()`: the instance dict
first, else the class attribute. -/
def usersReadyObserved (w : ChanWorld) (c : ChannelObj) : Bool :=
  c.usersReadyInstance.getD w.classUsersReady

inductive ChanOp
  | newChannel (name : Str)
  | endOfNames (chan : Str)
  | partClear (chan : Str)
deriving DecidableEq, Repr

/-- Effect of the channel operations on the world.  `Channel.__init__` adds an
instance with an empty `users_ready` slot; `_recv_end_of_names` runs
`self.users_ready.set()` and `part` runs `self.users_ready.clear()`, both of
which mutate the one class-level Event found by attribute lookup. -/
def applyChanOp (w : ChanWorld) : ChanOp → ChanWorld
  | ChanOp.newChannel name => { w with channels := w.channels ++ [⟨name, none⟩] }
  | ChanOp.endOfNames _ => { w with classUsersReady := true }
  | ChanOp.partClear _ => { w with classUsersReady := false }

def runChanOps (w : ChanWorld) (ops : List ChanOp) : ChanWorld :=
  ops.foldl applyChanOp w

/-- No channels yet; the class-level Event starts unset. -/
def initialChanWorld : ChanWorld := ⟨false, []⟩

/-! ## Channel user list (geventirc/userlist.py) -/

def asciiLower (c : Char) : Char :=
  if 'A' ≤ c ∧ c ≤ 'Z' then Char.ofNat (c.toNat + 32) else c

def lowerStr (l : Str) : Str := l.map asciiLower

/-- Python `list.index` (first index of an element; total here, returning the
length when absent, which models the ValueError as an out-of-range index that the
guards below never let through). -/
def idxOf (a : Str) : List Str → Nat
  | [] => 0
  | x :: l => if x = a then 0 else idxOf a l + 1

/-- Generic association-list lookup (a Python dict read). -/
def alistGet {β : Type} (k : Str) : List (Str × β) → Option β
  | [] => none
  | (k', v) :: rest => if k' = k then some v else alistGet k rest

/-- The state of a geventirc `UserList`: the rank modes most-powerful-first ending
with the base `''` mode, the prefix-to-mode map, and the mode-to-user-set map.
User sets are `Finset Str`, matching Python `set`. -/
structure UserList where
  modes : List Str
  prefix_map : List (Str × Str)
  user_map : List (Str × Finset Str)
deriving DecidableEq

/-- `KNOWN_NAMES` from geventirc/userlist.py. -/
def KNOWN_NAMES : List (Str × Str) :=
  [(str "owners", str "q"), (str "admins", str "a"), (str "ops", str "o"),
   (str "halfops", str "h"), (str "voiced", str "v"), (str "users", str "")]

/-- `UserList._resolve_name`: a mode letter, else a prefix char, else a friendly
name whose mode the server supports. -/
def UserList.resolve_name (ul : UserList) (name : Str) : Option Str :=
  if name ∈ ul.modes then some name
  else
    match alistGet name ul.prefix_map with
    | some m => some m
    | none =>
      match alistGet name KNOWN_NAMES with
      | some m => if m ∈ ul.modes then some m else none
      | none => none

def umGet (um : List (Str × Finset Str)) (k : Str) : Finset Str :=
  (alistGet k um).getD ∅

/-- The accumulation loop of `UserList.__getitem__`: union the user sets of the
modes in order, stopping after the looked-up mode (first occurrence). -/
def unionUntil (um : List (Str × Finset Str)) (item : Str) : List Str → Finset Str
  | [] => ∅
  | mo :: ms => umGet um mo ∪ (if mo = item then ∅ else unionUntil um item ms)

/-- `UserList.__getitem__`: resolve the name (a failed resolve is the KeyError,
modelled as `none`), then union this mode with every higher mode. -/
def UserList.getItem (ul : UserList) (name : Str) : Option (Finset Str) :=
  match ul.resolve_name name with
  | none => none
  | some item => some (unionUntil ul.user_map item ul.modes)

/-- `UserList.only`: the users whose highest mode is exactly this mode: `self[mode]`
minus `self[higher_mode]` for the next higher mode if any.  A failed resolve is the
ValueError; a resolved mode absent from `modes` is the `list.index` ValueError. -/
def UserList.only (ul : UserList) (mode : Str) : Option (Finset Str) :=
  match ul.resolve_name mode with
  | none => none
  | some m =>
    if m ∈ ul.modes then
      match ul.getItem mode with
      | none => none
      | some result =>
        match (if 0 < idxOf m ul.modes then ul.modes.get? (idxOf m ul.modes - 1) else none) with
        | none => some result
        | some hmode =>
          match ul.getItem hmode with
          | none => none
          | some hset => some (result \ hset)
    else none

/-- `UserList.get_level`: the first mode whose user set contains the (lowered)
user, else the KeyError, modelled as `none`.  Python iterates `user_map.items()`
in arbitrary dict order; this model fixes the stored order (in the states the
claims reach, a user is in at most one set, so the choice does not matter). -/
def UserList.get_level (ul : UserList) (user : Str) : Option Str :=
  (ul.user_map.find? fun kv => lowerStr user ∈ kv.2).map (·.1)

/-- `self._user_map[mode].add(user)`; a missing mode key would be a Python
KeyError, which `parse_prefixes` makes unreachable (every stripped prefix maps to
an existing key), so it is modelled as a no-op. -/
def umInsert (mode user : Str) : List (Str × Finset Str) → List (Str × Finset Str)
  | [] => []
  | (k, s) :: rest =>
    if k = mode then (k, insert user s) :: rest else (k, s) :: umInsert mode user rest

/-- The prefix-stripping loop of `recv_user_prefix`: while some nonempty prefix
char of `prefix_map` starts the name, record its mode and drop one character.
Python iterates the dict in arbitrary order, but the prefixes are distinct single
characters, so at most one can match and the result is order-independent. -/
def stripModes (pm : List (Str × Str)) : Str → List Str → Str × List Str
  | [], acc => ([], acc)
  | c :: rest, acc =>
    match pm.find? fun kv => kv.1 ≠ [] && kv.1.isPrefixOf (c :: rest) with
    | none => (c :: rest, acc)
    | some kv => stripModes pm rest (acc ++ [kv.2])

/-- Python errors surfaced by the user-list handlers. -/
inductive PyError
  | attributeError
  | valueError
deriving DecidableEq, Repr

/-- `UserList.recv_user_prefix`.  Faithful to the source, bugs included:
`modes = set('')` is the EMPTY set (iterating the empty string yields no
characters), not `{''}`, so a name with no prefix chars is inserted nowhere.
On the downgrade path the source reads `self.mode` (a typo for `self.modes`),
an AttributeError; and `min` of the empty mode set is a ValueError. -/
def UserList.recv_user_prefix (ul : UserList) (user0 : Str) : Except PyError UserList :=
  let user1 := lowerStr user0
  let stripped := stripModes ul.prefix_map user1 []
  let user := stripped.1
  let modesFound := stripped.2
  let add : UserList :=
    { ul with user_map := modesFound.foldl (fun um mo => umInsert mo user um) ul.user_map }
  match ul.get_level user with
  | none => Except.ok add
  | some lvl =>
    match (modesFound.map (idxOf · ul.modes)).min? with
    | none => Except.error PyError.valueError
    | some rank =>
      if idxOf lvl ul.modes < rank then Except.error PyError.attributeError
      else Except.ok add

/-- `UserList.recv_user_list`: drop the first three parameters (nick, '=' flag,
channel), rejoin the rest with spaces, split again, and feed each token to
`recv_user_prefix`. -/
def UserList.recv_user_list (ul : UserList) (params : List Str) : Except PyError UserList :=
  let users := (List.intercalate [' '] (params.drop 3)).splitOn ' '
  users.foldlM UserList.recv_user_prefix ul

/-- The `PREFIX` parse of girc/server_properties.py (`prefixes`): the regex
`^\((.*)\)(.*)$` with a greedy group takes everything up to the LAST `')'` as the
modes and the rest as the prefix chars, and requires equal lengths. -/
def parsePrefixPairs (s : Str) : Option (List (Str × Str)) :=
  match s with
  | '(' :: body =>
    if ')' ∈ body then
      let r := pySplit1 ')' body.reverse
      let modes := r.2.reverse
      let prefs := r.1.reverse
      if modes.length = prefs.length then
        some ((modes.zip prefs).map fun p => ([p.1], [p.2]))
      else none
    else none
  | _ => none

/-- `UserList.parse_prefixes`: append the special base `('', '')` pair, then build
the three maps. -/
def mkUserList (mode_pairs : List (Str × Str)) : UserList :=
  let pairs := mode_pairs ++ [([], [])]
  { modes := pairs.map (·.1),
    prefix_map := pairs.map fun p => (p.2, p.1),
    user_map := pairs.map fun p => (p.1, (∅ : Finset Str)) }

/-- The user list of a fresh channel under the default server properties
(`PREFIX=(ov)@+`). -/
def defaultUserList : UserList :=
  mkUserList ((parsePrefixPairs (str "(ov)@+")).getD [])

/-- `[m']` is ranked above `[m]` when both are in the mode list and `m'` comes
first (most powerful first). -/
def rankedAbove (ul : UserList) (m' m : Str) : Prop :=
  m' ∈ ul.modes ∧ m ∈ ul.modes ∧ idxOf m' ul.modes < idxOf m ul.modes

instance (ul : UserList) (m' m : Str) : Decidable (rankedAbove ul m' m) := by
  unfold rankedAbove
  infer_instance

/-- A concrete populated user list for witnesses: ops contains alice, voiced
contains bob, the base mode contains carol. -/
def sampleUserList : UserList :=
  { defaultUserList with
    user_map := [(str "o", {str "alice"}), (str "v", {str "bob"}), ([], {str "carol"})] }

/-! ## Handler dependency graph, cycle check and receive loop (girc/client.py) -/

/-- A node of the per-message dependency graph built by `_dispatch_handlers`:
a registered handler (by its index in the registration list) or the virtual
'sync' node. -/
inductive HNode
  | h (i : Nat)
  | sync
deriving DecidableEq, Repr

/-- The ordering metadata of one registered handler: the contents of its `before`
and `after` sets, referring to other handlers by index or to the 'sync' token
(`sync=True` is sugar for `before` containing 'sync'). -/
structure HandlerMeta where
  before : List HNode
  after : List HNode
deriving DecidableEq, Repr, Inhabited

/-- Membership in the graph key set: every registered handler plus 'sync'. -/
def inGraph (hs : List HandlerMeta) : HNode → Bool
  | HNode.h i => i < hs.length
  | HNode.sync => true

/-- `graph[x]` as built by `_dispatch_handlers`: `x`'s own `after` entries that
are in the graph, plus every handler whose `before` names `x`. -/
def deps (hs : List HandlerMeta) (x : HNode) : List HNode :=
  (match x with
   | HNode.h i => (((hs.get? i).map HandlerMeta.after).getD []).filter (inGraph hs)
   | HNode.sync => [])
    ++ ((List.range hs.length).filter
          fun j => x ∈ ((hs.get? j).map HandlerMeta.before).getD []).map HNode.h

/-- `check_cycles`: depth-first search carrying the chain; raising (True) when a
node reappears in its own chain.  The fuel only bounds the recursion depth; with
fuel exceeding the node count it is never exhausted, because a chain without a
repeat visits distinct nodes. -/
def checkCycles (hs : List HandlerMeta) : Nat → List HNode → HNode → Bool
  | 0, _, _ => true
  | fuel + 1, chain, x =>
    if x ∈ chain then true
    else (deps hs x).any (checkCycles hs fuel (chain ++ [x]))

def graphNodes (hs : List HandlerMeta) : List HNode :=
  (List.range hs.length).map HNode.h ++ [HNode.sync]

/-- `for handler in graph: check_cycles(handler)`: the dispatch raises a
ValueError iff the DFS from some key finds a cycle. -/
def hasCycleError (hs : List HandlerMeta) : Bool :=
  (graphNodes hs).any fun n => checkCycles hs (hs.length + 2) [] n

/-- The cycle-check stage of `_dispatch_handlers`: its ValueError (modelled as
`Except.error`) propagates out of the call, before any greenlet is spawned. -/
def dispatchCycleCheck (hs : List HandlerMeta) : Except Unit Unit :=
  if hasCycleError hs then Except.error () else Except.ok ()

/-- `line.strip()` of `_process`: strip ASCII whitespace from both ends. -/
def pyStripWS (l : Str) : Str :=
  ((l.dropWhile fun c => c = ' ' ∨ c = '\t' ∨ c = '\r' ∨ c = '\n').reverse.dropWhile
    fun c => c = ' ' ∨ c = '\t' ∨ c = '\r' ∨ c = '\n').reverse

/-- `Client._process`: strip the line, skip it when empty, drop it with a logged
warning when `decode` raises InvalidMessage, and otherwise dispatch.  Only
InvalidMessage is caught: any other exception (the dispatch cycle ValueError, or
decode's IndexError, unreachable here because empty lines were skipped) escapes
to the read loop.  `ok true` means the message was dispatched, `ok false` that
the line was dropped, `error` that the exception escaped. -/
def processLine (hs : List HandlerMeta) (line : Str) : Except Unit Bool :=
  let l := pyStripWS line
  if l = [] then Except.ok false
  else
    match decode l with
    | Except.error (DecodeErr.invalid _ _) => Except.ok false
    | Except.error DecodeErr.indexError => Except.error ()
    | Except.ok _ =>
      match dispatchCycleCheck hs with
      | Except.error _ => Except.error ()
      | Except.ok _ => Except.ok true

/-- The observable state of the receive loop: how many messages have been
dispatched, and whether the loop has stopped the client with an error. -/
structure RecvState where
  dispatched : Nat
  stoppedWithError : Bool
deriving DecidableEq, Repr

/-- The per-batch line loop of `_recv_loop` (`for line in lines: self._process(line)`)
with its enclosing `except Exception`: an escaping exception ends the loop and the
client is stopped with that error; the remaining lines are never processed. -/
def runRecvLines (hs : List HandlerMeta) : List Str → RecvState → RecvState
  | [], st => st
  | line :: rest, st =>
    match processLine hs line with
    | Except.ok b =>
      runRecvLines hs rest { st with dispatched := st.dispatched + (if b then 1 else 0) }
    | Except.error _ => { st with stoppedWithError := true }

/-- Two handlers forming a `before`/`after` cycle, as a user can create with
`before=` and `after=` registration arguments. -/
def cyclicHandlers : List HandlerMeta :=
  [⟨[], [HNode.h 1]⟩, ⟨[], [HNode.h 0]⟩]

/-! ## Sync-barrier trace model (girc/client.py `_recv_loop` and
`_dispatch_handlers`)

The concurrency of the dispatcher is modelled by traces of events and a validity
predicate carrying exactly the synchronisation the code enforces:

* `start i`: the read loop enters `_process` for inbound message number `i`;
  the loop is sequential, so this happens only after `_dispatch_handlers` for
  message `i - 1` returned (`ret (i-1)`).
* `invoke i hid`: the greenlet of handler `hid` for message `i` calls
  `handler.handle`; greenlets are spawned inside the dispatch of message `i`,
  so only after `start i`.
* `complete i hid`: that call returned (exceptions are caught inside `handle`);
  necessarily after its `invoke`.
* `ret i`: `greenlets['sync'].get()` returned and `_dispatch_handlers` gave
  control back to the read loop; `wait_for_sync` joined the greenlet of every
  registered handler whose `before` contains 'sync', so each such handler has
  a prior `complete i`.
-/

inductive TraceEv
  | start (i : Nat)
  | invoke (i : Nat) (hid : Nat)
  | complete (i : Nat) (hid : Nat)
  | ret (i : Nat)
deriving DecidableEq, Repr

/-- `sync=True` for a handler: 'sync' is in its `before` set. -/
def isSync (hm : HandlerMeta) : Bool := HNode.sync ∈ hm.before

/-- The ordering constraints satisfied by the event at position `a` of a trace. -/
def evOk (hs : List HandlerMeta) (tr : List TraceEv) (a : Nat) : TraceEv → Prop
  | TraceEv.start 0 => True
  | TraceEv.start (i + 1) => ∃ b, b < a ∧ tr.get? b = some (TraceEv.ret i)
  | TraceEv.invoke i _ => ∃ b, b < a ∧ tr.get? b = some (TraceEv.start i)
  | TraceEv.complete i hid => ∃ b, b < a ∧ tr.get? b = some (TraceEv.invoke i hid)
  | TraceEv.ret i =>
    (∃ b, b < a ∧ tr.get? b = some (TraceEv.start i))
      ∧ ∀ hid, hid < hs.length → isSync (hs.getD hid default) = true →
          ∃ b, b < a ∧ tr.get? b = some (TraceEv.complete i hid)

/-- A trace the client can produce: every event satisfies its constraints. -/
def validTrace (hs : List HandlerMeta) (tr : List TraceEv) : Prop :=
  ∀ a, (ha : a < tr.length) → evOk hs tr a (tr.get ⟨a, ha⟩)

instance occursBeforeDec (tr : List TraceEv) (a : Nat) (e : TraceEv) :
    Decidable (∃ b, b < a ∧ tr.get? b = some e) :=
  decidable_of_iff ((List.range a).any fun b => tr.get? b = some e) <| by
    simp only [List.any_eq_true, List.mem_range, decide_eq_true_eq]

instance evOkDec (hs : List HandlerMeta) (tr : List TraceEv) (a : Nat) (e : TraceEv) :
    Decidable (evOk hs tr a e) := by
  cases e with
  | start i =>
    cases i with
    | zero => exact inferInstanceAs (Decidable True)
    | succ n => exact inferInstanceAs (Decidable (∃ b, b < a ∧ tr.get? b = some (TraceEv.ret n)))
  | invoke i hid =>
    exact inferInstanceAs (Decidable (∃ b, b < a ∧ tr.get? b = some (TraceEv.start i)))
  | complete i hid =>
    exact inferInstanceAs (Decidable (∃ b, b < a ∧ tr.get? b = some (TraceEv.invoke i hid)))
  | ret i =>
    exact inferInstanceAs (Decidable ((∃ b, b < a ∧ tr.get? b = some (TraceEv.start i))
      ∧ ∀ hid, hid < hs.length → isSync (hs.getD hid default) = true →
          ∃ b, b < a ∧ tr.get? b = some (TraceEv.complete i hid)))

instance validTraceDec (hs : List HandlerMeta) (tr : List TraceEv) :
    Decidable (validTrace hs tr) :=
  inferInstanceAs (Decidable (∀ a, (ha : a < tr.length) → evOk hs tr a (tr.get ⟨a, ha⟩)))

/-! ## Theorems: list-splitting toolkit for the codec -/

theorem splitOn_eq_splitOnP (l : Str) : l.splitOn ' ' = l.splitOnP (· == ' ') := rfl

theorem modifyHead_append_of_ne_nil (f : Str → Str) (A B : List Str) (h : A ≠ []) :
    (A ++ B).modifyHead f = A.modifyHead f ++ B := by
  cases A with
  | nil => exact absurd rfl h
  | cons a t => rfl

theorem splitOnP_sep_append (Y : Str) :
    ∀ X : Str, (X ++ ' ' :: Y).splitOnP (· == ' ')
      = X.splitOnP (· == ' ') ++ Y.splitOnP (· == ' ')
  | [] => by simp [List.splitOnP_cons]
  | c :: X => by
    by_cases h : c = ' '
    · subst h
      simp [List.splitOnP_cons, splitOnP_sep_append Y X]
    · simp only [List.cons_append, List.splitOnP_cons, beq_iff_eq, if_neg h,
        splitOnP_sep_append Y X,
        modifyHead_append_of_ne_nil _ _ _ (List.splitOnP_ne_nil _ X)]

theorem pyWords_sep_append (X Y : Str) :
    pyWords (X ++ ' ' :: Y) = pyWords X ++ pyWords Y := by
  simp only [pyWords, splitOn_eq_splitOnP, splitOnP_sep_append, List.filter_append]

theorem pyWords_single (X : Str) (h1 : X ≠ []) (h2 : ' ' ∉ X) : pyWords X = [X] := by
  unfold pyWords
  rw [splitOn_eq_splitOnP, List.splitOnP_eq_single]
  · simp [h1]
  · intro x hx hc
    exact h2 ((beq_iff_eq.mp hc) ▸ hx)

theorem intercalate_cons_of_ne_nil (s a : Str) (l : List Str) (h : l ≠ []) :
    List.intercalate s (a :: l) = a ++ s ++ List.intercalate s l := by
  cases l with
  | nil => exact absurd rfl h
  | cons b t =>
    simp [List.intercalate, List.intersperse_cons_cons]

theorem pyWords_intercalate_parts (z : Str) :
    ∀ ps : List Str, (∀ p ∈ ps, p ≠ [] ∧ ' ' ∉ p) →
      pyWords (List.intercalate [' '] (ps ++ [z])) = ps ++ pyWords z
  | [], _ => by simp [List.intercalate]
  | p :: ps, h => by
    have hp := h p (List.mem_cons_self p ps)
    have hrest : ∀ q ∈ ps, q ≠ [] ∧ ' ' ∉ q := fun q hq => h q (List.mem_cons_of_mem _ hq)
    have hne : ps ++ [z] ≠ [] := by simp
    rw [List.cons_append, intercalate_cons_of_ne_nil _ _ _ hne]
    have hsp : p ++ [' '] ++ List.intercalate [' '] (ps ++ [z])
        = p ++ ' ' :: List.intercalate [' '] (ps ++ [z]) := by simp
    rw [hsp, pyWords_sep_append, pyWords_single p hp.1 hp.2,
      pyWords_intercalate_parts z ps hrest]
    simp

theorem noSpaceRun_tail (a : Char) (r : Str) (h : noSpaceRun (a :: r) = true) :
    noSpaceRun r = true := by
  cases r with
  | nil => rfl
  | cons b r' =>
    simp only [noSpaceRun, Bool.and_eq_true] at h
    exact h.2

theorem noEmptyChunk : ∀ (l : Str), noSpaceRun l = true → ∀ (c : Char), c ≠ ' ' →
    ∀ w ∈ (c :: l).splitOnP (· == ' '), w ≠ []
  | [], _, c, hc, w, hw => by
    simp only [List.splitOnP_cons, beq_iff_eq, if_neg hc, List.splitOnP_nil,
      List.modifyHead, List.mem_singleton] at hw
    subst hw
    simp
  | c' :: r, h, c, hc, w, hw => by
    by_cases hc' : c' = ' '
    · subst hc'
      cases r with
      | nil => simp [noSpaceRun] at h
      | cons c'' r' =>
        have hnr : noSpaceRun (c'' :: r') = true := noSpaceRun_tail _ _ h
        have hc'' : c'' ≠ ' ' := by
          intro he
          subst he
          simp [noSpaceRun] at h
        rw [List.splitOnP_cons, if_neg (by simpa using hc), List.splitOnP_cons,
          if_pos (by simp)] at hw
        simp only [List.modifyHead, List.mem_cons] at hw
        rcases hw with rfl | hw
        · simp
        · exact noEmptyChunk r' (noSpaceRun_tail _ _ hnr) c'' hc'' w hw
    · have hrec := noEmptyChunk r (noSpaceRun_tail _ _ h) c' hc'
      rw [List.splitOnP_cons, if_neg (by simpa using hc)] at hw
      rcases hS : (c' :: r).splitOnP (· == ' ') with _ | ⟨s0, t⟩
      · exact absurd hS (List.splitOnP_ne_nil _ _)
      · rw [hS] at hw
        simp only [List.modifyHead, List.mem_cons] at hw
        rcases hw with rfl | hw
        · simp
        · exact hrec w (hS ▸ List.mem_cons_of_mem _ hw)

theorem parseParams_trailing (lastP : Str) (h : noSpaceRun lastP = true) :
    parseParams (pyWords (':' :: lastP)) = [lastP] := by
  have hne : ∀ w ∈ (':' :: lastP).splitOnP (· == ' '), w ≠ [] :=
    noEmptyChunk lastP h ':' (by decide)
  have hwords : pyWords (':' :: lastP) = (':' :: lastP).splitOnP (· == ' ') := by
    unfold pyWords
    rw [splitOn_eq_splitOnP]
    exact List.filter_eq_self.mpr fun a ha => by simpa using hne a ha
  obtain ⟨s0, t, hS⟩ : ∃ s0 t, lastP.splitOnP (· == ' ') = s0 :: t := by
    rcases hl : lastP.splitOnP (· == ' ') with _ | ⟨s0, t⟩
    · exact absurd hl (List.splitOnP_ne_nil _ _)
    · exact ⟨s0, t, rfl⟩
  have hcolon : (':' :: lastP).splitOnP (· == ' ') = (':' :: s0) :: t := by
    rw [List.splitOnP_cons, if_neg (by decide), hS]
    rfl
  have hjoin : List.intercalate [' '] ((':' :: s0) :: t) = ':' :: lastP := by
    rw [← hcolon, ← splitOn_eq_splitOnP]
    exact List.intercalate_splitOn _ ' '
  rw [hwords, hcolon]
  simp only [parseParams, List.head?, if_pos rfl, hjoin]
  rfl

theorem parseParams_middles (T : List Str) :
    ∀ mids : List Str, (∀ p ∈ mids, p.head? ≠ some ':') →
      parseParams (mids ++ T) = mids ++ parseParams T
  | [], _ => by simp
  | p :: mids, h => by
    have hp := h p (List.mem_cons_self _ _)
    have hrest := parseParams_middles T mids fun q hq => h q (List.mem_cons_of_mem _ hq)
    simp only [List.cons_append, parseParams, if_neg hp, List.append_eq, hrest]

theorem pySplit1_spec (c : Char) (suffix : Str) :
    ∀ P : Str, c ∉ P → pySplit1 c (P ++ c :: suffix) = (P, suffix)
  | [], _ => by simp [pySplit1]
  | x :: xs, hc => by
    have hx : ¬x = c := fun e => hc (e ▸ List.mem_cons_self _ _)
    have hxs : c ∉ xs := fun m => hc (List.mem_cons_of_mem _ m)
    simp [pySplit1, hx, pySplit1_spec c suffix xs hxs]

theorem contains_iff_mem (l : Str) (c : Char) : l.contains c = true ↔ c ∈ l :=
  List.elem_iff

theorem mem_intersperse (s : Str) :
    ∀ (L : List Str) (p : Str), p ∈ L.intersperse s → p = s ∨ p ∈ L
  | [], p, hp => by simp at hp
  | [a], p, hp => by
    simp only [List.intersperse_singleton, List.mem_singleton] at hp
    exact Or.inr (by simp [hp])
  | a :: b :: t, p, hp => by
    rw [List.intersperse_cons_cons] at hp
    rcases List.mem_cons.mp hp with rfl | hp
    · exact Or.inr (List.mem_cons_self _ _)
    rcases List.mem_cons.mp hp with rfl | hp
    · exact Or.inl rfl
    rcases mem_intersperse s (b :: t) p hp with h | h
    · exact Or.inl h
    · exact Or.inr (List.mem_cons_of_mem _ h)

theorem mem_intercalate_sp (L : List Str) (c : Char) (hc : c ∈ List.intercalate [' '] L) :
    c = ' ' ∨ ∃ p ∈ L, c ∈ p := by
  unfold List.intercalate at hc
  rw [List.mem_flatten] at hc
  obtain ⟨piece, hpiece, hcp⟩ := hc
  rcases mem_intersperse [' '] L piece hpiece with rfl | h
  · exact Or.inl (by simpa using hcp)
  · exact Or.inr ⟨piece, h, hcp⟩

theorem pyStripCRLF_eq_self (l : Str) (h : ∀ c ∈ l, c ≠ '\r' ∧ c ≠ '\n') :
    pyStripCRLF l = l := by
  unfold pyStripCRLF
  have hdrop : ∀ m : Str, (∀ c ∈ m, c ≠ '\r' ∧ c ≠ '\n') →
      (m.dropWhile fun c => decide (c = '\r' ∨ c = '\n')) = m := by
    intro m hm
    cases m with
    | nil => rfl
    | cons a t =>
      rw [List.dropWhile_cons, if_neg]
      simp only [decide_eq_true_eq]
      have := hm a (List.mem_cons_self _ _)
      rintro (rfl | rfl)
      · exact this.1 rfl
      · exact this.2 rfl
  rw [hdrop l h, hdrop l.reverse fun c hc => h c (List.mem_reverse.mp hc), List.reverse_reverse]

theorem tokenOk_spec (l : Str) (h : tokenOk l = true) :
    l ≠ [] ∧ ∀ c ∈ l, c ≠ ' ' ∧ c ≠ '\r' ∧ c ≠ '\n' ∧ c ≠ '\x00' := by
  simp only [tokenOk, Bool.and_eq_true, decide_eq_true_eq, List.all_eq_true] at h
  exact ⟨h.1, fun c hc => by
    have := h.2 c hc
    simp only [Bool.and_eq_true, decide_eq_true_eq] at this
    exact ⟨this.1.1.1, this.1.1.2, this.1.2, this.2⟩⟩

theorem pfxFieldOk_spec (s : Str) (h : pfxFieldOk (some s) = true) :
    s ≠ [] ∧ ∀ c ∈ s, c ≠ ' ' ∧ c ≠ '@' ∧ c ≠ '!' ∧ c ≠ '\r' ∧ c ≠ '\n' ∧ c ≠ '\x00' := by
  simp only [pfxFieldOk, Bool.and_eq_true, decide_eq_true_eq, List.all_eq_true] at h
  refine ⟨h.1, fun c hc => ?_⟩
  have := h.2 c hc
  simp only [Bool.and_eq_true, decide_eq_true_eq] at this
  exact ⟨this.1.1.1.1.1, this.1.1.1.1.2, this.1.1.1.2, this.1.1.2, this.1.2, this.2⟩

theorem getD_chars (o : Option Str) (h : pfxFieldOk o = true) :
    ∀ c ∈ o.getD [], c ≠ ' ' ∧ c ≠ '@' ∧ c ≠ '!' ∧ c ≠ '\r' ∧ c ≠ '\n' ∧ c ≠ '\x00' := by
  cases o with
  | none => intro c hc; simp at hc
  | some s => exact fun c hc => (pfxFieldOk_spec s h).2 c hc

theorem pfxTok_mem (m : Message) (c : Char) (hc : c ∈ pfxTok m) :
    c = ':' ∨ c = '!' ∨ c = '@'
      ∨ c ∈ m.sender.getD [] ∨ c ∈ m.user.getD [] ∨ c ∈ m.host.getD [] := by
  by_cases htu : truthy m.user = true <;> by_cases hth : truthy m.host = true <;>
    simp only [pfxTok, htu, hth, if_true, if_false, Bool.false_eq_true, ite_false, ite_true,
      List.append_nil, List.cons_append, List.mem_cons, List.mem_append] at hc <;>
    tauto

theorem pfxTok_chars (m : Message) (hs : pfxFieldOk m.sender = true)
    (hu : pfxFieldOk m.user = true) (hh : pfxFieldOk m.host = true) :
    ∀ c ∈ pfxTok m, c ≠ ' ' ∧ c ≠ '\r' ∧ c ≠ '\n' ∧ c ≠ '\x00' := by
  intro c hc
  rcases pfxTok_mem m c hc with rfl | rfl | rfl | hm | hm | hm
  · exact ⟨by decide, by decide, by decide, by decide⟩
  · exact ⟨by decide, by decide, by decide, by decide⟩
  · exact ⟨by decide, by decide, by decide, by decide⟩
  · have := getD_chars m.sender hs c hm
    exact ⟨this.1, this.2.2.2.1, this.2.2.2.2.1, this.2.2.2.2.2⟩
  · have := getD_chars m.user hu c hm
    exact ⟨this.1, this.2.2.2.1, this.2.2.2.2.1, this.2.2.2.2.2⟩
  · have := getD_chars m.host hh c hm
    exact ⟨this.1, this.2.2.2.1, this.2.2.2.2.1, this.2.2.2.2.2⟩

theorem truthy_getD (o : Option Str) (h : pfxFieldOk o = true) (ht : truthy o = true) :
    ∃ s, o = some s ∧ s ≠ [] := by
  cases o with
  | none => simp [truthy] at ht
  | some s => exact ⟨s, rfl, (pfxFieldOk_spec s h).1⟩

theorem not_truthy_none (o : Option Str) (h : pfxFieldOk o = true) (ht : truthy o = false) :
    o = none := by
  cases o with
  | none => rfl
  | some s =>
    simp only [truthy, decide_eq_false_iff_not, not_not] at ht
    exact absurd ht (pfxFieldOk_spec s h).1

theorem contains_false_of_not_mem (l : Str) (c : Char) (h : c ∉ l) :
    ¬l.contains c = true :=
  fun hc => h ((contains_iff_mem l c).mp hc)

theorem parsePfx_plain (s : Str) (h1 : '@' ∉ s) (h2 : '!' ∉ s) :
    parsePfx s = (some s, none, none) := by
  simp [parsePfx, h1, h2]

theorem parsePfx_user (s u : Str) (h1 : '@' ∉ s) (h2 : '!' ∉ s) (h3 : '@' ∉ u) :
    parsePfx (s ++ '!' :: u) = (some s, some u, none) := by
  have hat : '@' ∉ s ++ '!' :: u := by
    intro hm
    rcases List.mem_append.mp hm with hm | hm
    · exact h1 hm
    · rcases List.mem_cons.mp hm with he | hm
      · exact absurd he.symm (by decide)
      · exact h3 hm
  have e2 : pySplit1 '!' (s ++ '!' :: u) = (s, u) := pySplit1_spec '!' u s h2
  simp [parsePfx, h1, h2, h3, e2]

theorem parsePfx_host (s hostv : Str) (h1 : '@' ∉ s) (h2 : '!' ∉ s) :
    parsePfx (s ++ '@' :: hostv) = (some s, none, some hostv) := by
  have e1 : pySplit1 '@' (s ++ '@' :: hostv) = (s, hostv) := pySplit1_spec '@' hostv s h1
  simp [parsePfx, e1, h1, h2]

theorem parsePfx_user_host (s u hostv : Str) (h1 : '@' ∉ s) (h2 : '!' ∉ s) (h3 : '@' ∉ u) :
    parsePfx (s ++ '!' :: (u ++ '@' :: hostv)) = (some s, some u, some hostv) := by
  have hat : '@' ∉ s ++ '!' :: u := by
    intro hm
    rcases List.mem_append.mp hm with hm | hm
    · exact h1 hm
    · rcases List.mem_cons.mp hm with he | hm
      · exact absurd he.symm (by decide)
      · exact h3 hm
  have e1 : pySplit1 '@' (s ++ '!' :: (u ++ '@' :: hostv)) = (s ++ '!' :: u, hostv) := by
    have hshape : s ++ '!' :: (u ++ '@' :: hostv) = (s ++ '!' :: u) ++ '@' :: hostv := by simp
    rw [hshape]
    exact pySplit1_spec '@' hostv _ hat
  have e2 : pySplit1 '!' (s ++ '!' :: u) = (s, u) := pySplit1_spec '!' u s h2
  simp [parsePfx, e1, e2, h1, h2, h3]

theorem parsePfx_pfxTok (m : Message) (hs : pfxFieldOk m.sender = true)
    (hu : pfxFieldOk m.user = true) (hh : pfxFieldOk m.host = true) :
    parsePfx ((pfxTok m).drop 1) = (some (m.sender.getD []), m.user, m.host) := by
  have hsChars := getD_chars m.sender hs
  have hat : '@' ∉ m.sender.getD [] := fun hm => (hsChars _ hm).2.1 rfl
  have hex : '!' ∉ m.sender.getD [] := fun hm => (hsChars _ hm).2.2.1 rfl
  by_cases htu : truthy m.user = true
  · obtain ⟨u, hueq, _⟩ := truthy_getD m.user hu htu
    have huat : '@' ∉ m.user.getD [] := fun hm => (getD_chars m.user hu _ hm).2.1 rfl
    by_cases hth : truthy m.host = true
    · obtain ⟨hostv, hheq, _⟩ := truthy_getD m.host hh hth
      have hbody : (pfxTok m).drop 1
          = m.sender.getD [] ++ '!' :: (m.user.getD [] ++ '@' :: m.host.getD []) := by
        simp [pfxTok, htu, hth]
      rw [hbody, parsePfx_user_host _ _ _ hat hex huat]
      simp [hueq, hheq]
    · have hheq := not_truthy_none m.host hh (by simpa using hth)
      have hbody : (pfxTok m).drop 1 = m.sender.getD [] ++ '!' :: m.user.getD [] := by
        simp [pfxTok, htu, hth]
      rw [hbody, parsePfx_user _ _ hat hex huat]
      simp [hueq, hheq]
  · have hueq := not_truthy_none m.user hu (by simpa using htu)
    by_cases hth : truthy m.host = true
    · obtain ⟨hostv, hheq, _⟩ := truthy_getD m.host hh hth
      have hbody : (pfxTok m).drop 1 = m.sender.getD [] ++ '@' :: m.host.getD [] := by
        simp [pfxTok, htu, hth]
      rw [hbody, parsePfx_host _ _ hat hex]
      simp [hueq, hheq]
    · have hheq := not_truthy_none m.host hh (by simpa using hth)
      have hbody : (pfxTok m).drop 1 = m.sender.getD [] := by
        simp [pfxTok, htu, hth]
      rw [hbody, parsePfx_plain _ hat hex]
      simp [hueq, hheq]

theorem truthy_getD_some (o : Option Str) : truthy (some (o.getD [])) = truthy o := by
  cases o <;> simp [truthy]

theorem pfxEmitted_decodedOf (m : Message) : pfxEmitted (decodedOf m) = pfxEmitted m := by
  have huser : (decodedOf m).user = m.user := rfl
  have hhost : (decodedOf m).host = m.host := rfl
  by_cases he : pfxEmitted m = true
  · have hsender : (decodedOf m).sender = some (m.sender.getD []) := by
      simp [decodedOf, he]
    rw [pfxEmitted, hsender, huser, hhost, truthy_getD_some, ← pfxEmitted]
  · have he' : pfxEmitted m = false := by simpa using he
    have h3 := he'
    simp only [pfxEmitted, Bool.or_eq_false_iff] at h3
    have hsender : (decodedOf m).sender = none := by simp [decodedOf, he]
    rw [he', pfxEmitted, hsender, huser, hhost,
      show truthy (none : Option Str) = false from rfl, h3.1.2, h3.2]
    rfl

theorem pfxTok_decodedOf (m : Message) (he : pfxEmitted m = true) :
    pfxTok (decodedOf m) = pfxTok m := by
  have huser : (decodedOf m).user = m.user := rfl
  have hhost : (decodedOf m).host = m.host := rfl
  have hsender : (decodedOf m).sender = some (m.sender.getD []) := by
    simp [decodedOf, he]
  rw [pfxTok, hsender, huser, hhost]
  simp [pfxTok]

theorem encode_decodedOf (m : Message) :
    Message.encode (decodedOf m) = Message.encode m := by
  unfold Message.encode
  congr 1
  unfold encodeParts
  have hc : (decodedOf m).command = m.command := rfl
  have hp : (decodedOf m).params = m.params := rfl
  rw [pfxEmitted_decodedOf, hc, hp]
  by_cases he : pfxEmitted m = true
  · rw [if_pos he, if_pos he, pfxTok_decodedOf m he]
  · rw [if_neg he, if_neg he]

theorem wellFormed_spec (m : Message) (h : wellFormed m = true) :
    tokenOk m.command = true ∧ m.command.head? ≠ some ':' ∧ upperStr m.command = m.command
      ∧ pfxFieldOk m.sender = true ∧ pfxFieldOk m.user = true ∧ pfxFieldOk m.host = true
      ∧ (∀ p ∈ m.params.dropLast, tokenOk p = true ∧ p.head? ≠ some ':')
      ∧ ∀ lp, m.params.getLast? = some lp →
          noSpaceRun lp = true ∧ ∀ c ∈ lp, c ≠ '\r' ∧ c ≠ '\n' ∧ c ≠ '\x00' := by
  simp only [wellFormed, Bool.and_eq_true, decide_eq_true_eq, List.all_eq_true] at h
  obtain ⟨⟨⟨⟨⟨⟨⟨h1, h2⟩, h3⟩, h4⟩, h5⟩, h6⟩, h7⟩, h8⟩ := h
  refine ⟨h1, h2, h3, h4, h5, h6, ?_, ?_⟩
  · intro p hp
    have := h7 p hp
    simp only [Bool.and_eq_true, decide_eq_true_eq] at this
    exact this
  · intro lp hlp
    rw [hlp] at h8
    simp only [Option.all, Bool.and_eq_true, decide_eq_true_eq, List.all_eq_true] at h8
    refine ⟨h8.1, fun c hc => ?_⟩
    have := h8.2 c hc
    simp only [Bool.and_eq_true, decide_eq_true_eq] at this
    exact ⟨this.1.1, this.1.2, this.2⟩

theorem encodeParts_eq (m : Message) :
    encodeParts m = pfxList m ++ [m.command]
      ++ match m.params.getLast? with
         | none => []
         | some lp => m.params.dropLast ++ [':' :: lp] := by
  unfold encodeParts pfxList
  by_cases he : pfxEmitted m = true <;> simp [he]

theorem pfxTok_head (m : Message) : (pfxTok m).head? = some ':' := by
  simp [pfxTok]

theorem pfxTok_ne_nil (m : Message) : pfxTok m ≠ [] := by
  simp [pfxTok]

theorem encode_chars (m : Message) (h : wellFormed m = true) :
    ∀ c ∈ Message.encode m, c ≠ '\r' ∧ c ≠ '\n' ∧ c ≠ '\x00' := by
  obtain ⟨hcmdTok, _, _, hsOk, huOk, hhOk, hmid, hlast⟩ := wellFormed_spec m h
  intro c hc
  rcases mem_intercalate_sp _ c hc with rfl | ⟨p, hp, hcp⟩
  · exact ⟨by decide, by decide, by decide⟩
  rw [encodeParts_eq] at hp
  rcases List.mem_append.mp hp with hp | hp
  · rcases List.mem_append.mp hp with hp | hp
    · unfold pfxList at hp
      by_cases he : pfxEmitted m = true
      · rw [if_pos he] at hp
        rcases List.mem_singleton.mp hp with rfl
        have := pfxTok_chars m hsOk huOk hhOk c hcp
        exact ⟨this.2.1, this.2.2.1, this.2.2.2⟩
      · rw [if_neg he] at hp
        simp at hp
    · rcases List.mem_singleton.mp hp with rfl
      have := (tokenOk_spec _ hcmdTok).2 c hcp
      exact ⟨this.2.1, this.2.2.1, this.2.2.2⟩
  · cases hgl : m.params.getLast? with
    | none => rw [hgl] at hp; simp at hp
    | some lp =>
      rw [hgl] at hp
      rcases List.mem_append.mp hp with hp | hp
      · have := (tokenOk_spec _ (hmid p hp).1).2 c hcp
        exact ⟨this.2.1, this.2.2.1, this.2.2.2⟩
      · rcases List.mem_singleton.mp hp with rfl
        rcases List.mem_cons.mp hcp with rfl | hcp
        · exact ⟨by decide, by decide, by decide⟩
        · exact (hlast lp hgl).2 c hcp

theorem hasIllegal_encode (m : Message) (h : wellFormed m = true) :
    ¬hasIllegal (Message.encode m) = true := by
  intro hbad
  simp only [hasIllegal, List.any_eq_true, decide_eq_true_eq] at hbad
  obtain ⟨c, hc, hcs⟩ := hbad
  have := encode_chars m h c hc
  rcases hcs with rfl | rfl | rfl
  · exact this.1 rfl
  · exact this.2.1 rfl
  · exact this.2.2 rfl

theorem pyWords_encode (m : Message) (h : wellFormed m = true) :
    pyWords (Message.encode m)
      = (pfxList m ++ [m.command]
          ++ match m.params.getLast? with
             | none => []
             | some _ => m.params.dropLast
             ) ++ match m.params.getLast? with
                  | none => []
                  | some lp => pyWords (':' :: lp) := by
  obtain ⟨hcmdTok, _, _, hsOk, huOk, hhOk, hmid, _⟩ := wellFormed_spec m h
  have hfrontOk : ∀ p ∈ pfxList m ++ [m.command] ++ m.params.dropLast, p ≠ [] ∧ ' ' ∉ p := by
    intro p hp
    rcases List.mem_append.mp hp with hp | hp
    · rcases List.mem_append.mp hp with hp | hp
      · unfold pfxList at hp
        by_cases he : pfxEmitted m = true
        · rw [if_pos he] at hp
          rcases List.mem_singleton.mp hp with rfl
          exact ⟨pfxTok_ne_nil m, fun hsp => (pfxTok_chars m hsOk huOk hhOk ' ' hsp).1 rfl⟩
        · rw [if_neg he] at hp
          simp at hp
      · rcases List.mem_singleton.mp hp with rfl
        have := tokenOk_spec _ hcmdTok
        exact ⟨this.1, fun hsp => (this.2 ' ' hsp).1 rfl⟩
    · have := tokenOk_spec _ (hmid p hp).1
      exact ⟨this.1, fun hsp => (this.2 ' ' hsp).1 rfl⟩
  cases hgl : m.params.getLast? with
  | none =>
    have hfront : ∀ p ∈ pfxList m, p ≠ [] ∧ ' ' ∉ p := fun p hp =>
      hfrontOk p (List.mem_append.mpr (Or.inl (List.mem_append.mpr (Or.inl hp))))
    have hcmd := tokenOk_spec _ hcmdTok
    unfold Message.encode
    rw [encodeParts_eq, hgl]
    simp only [List.append_nil]
    rw [pyWords_intercalate_parts m.command (pfxList m) hfront,
      pyWords_single m.command hcmd.1 fun hsp => (hcmd.2 ' ' hsp).1 rfl]
  | some lp =>
    unfold Message.encode
    rw [encodeParts_eq, hgl]
    have hassoc : pfxList m ++ [m.command] ++ (m.params.dropLast ++ [(':' :: lp)])
        = (pfxList m ++ [m.command] ++ m.params.dropLast) ++ [(':' :: lp)] := by
      simp
    rw [hassoc, pyWords_intercalate_parts (':' :: lp) _ hfrontOk]

theorem decodeWords_pfx (l w0 : Str) (hw : w0.head? = some ':') (c : Str) (ps : List Str) :
    decodeWords l (w0 :: c :: ps)
      = Except.ok ⟨(parsePfx (w0.drop 1)).1, (parsePfx (w0.drop 1)).2.1,
          (parsePfx (w0.drop 1)).2.2, upperStr c, parseParams ps⟩ := by
  simp [decodeWords, hw]

theorem decodeWords_nopfx (l w0 : Str) (hw : w0.head? ≠ some ':') (rest : List Str) :
    decodeWords l (w0 :: rest)
      = Except.ok ⟨none, none, none, upperStr w0, parseParams rest⟩ := by
  simp [decodeWords, hw]

theorem decode_encode_wf (m : Message) (h : wellFormed m = true) :
    decode (Message.encode m) = Except.ok (decodedOf m) := by
  obtain ⟨hcmdTok, hcmdColon, hcmdUp, hsOk, huOk, hhOk, hmid, hlast⟩ := wellFormed_spec m h
  have hchars := encode_chars m h
  unfold decode
  rw [pyStripCRLF_eq_self _ fun c hc => ⟨(hchars c hc).1, (hchars c hc).2.1⟩,
    if_neg (hasIllegal_encode m h), pyWords_encode m h]
  cases hgl : m.params.getLast? with
  | none =>
    have hpnil : m.params = [] := List.getLast?_eq_none_iff.mp hgl
    simp only [List.append_nil]
    by_cases he : pfxEmitted m = true
    · rw [show pfxList m = [pfxTok m] from by simp [pfxList, he]]
      rw [show ([pfxTok m] ++ [m.command] : List Str) = pfxTok m :: m.command :: [] from rfl]
      rw [decodeWords_pfx _ _ (pfxTok_head m) _ _, parsePfx_pfxTok m hsOk huOk hhOk]
      simp [decodedOf, he, hpnil, parseParams, hcmdUp]
    · have h3 : pfxEmitted m = false := by simpa using he
      simp only [pfxEmitted, Bool.or_eq_false_iff] at h3
      rw [show pfxList m = [] from by simp [pfxList, he]]
      rw [show (([] : List Str) ++ [m.command]) = m.command :: [] from rfl]
      rw [decodeWords_nopfx _ _ hcmdColon]
      simp [decodedOf, he, hpnil, parseParams, hcmdUp,
        not_truthy_none m.user huOk h3.1.2, not_truthy_none m.host hhOk h3.2]
  | some lp =>
    obtain ⟨mids, hps⟩ := List.getLast?_eq_some_iff.mp hgl
    have hdrop : m.params.dropLast = mids := by rw [hps, List.dropLast_concat]
    have hmids : ∀ p ∈ mids, p.head? ≠ some ':' := fun p hp => (hmid p (hdrop ▸ hp)).2
    have hlp := hlast lp hgl
    have hparse : parseParams (mids ++ pyWords (':' :: lp)) = mids ++ [lp] := by
      rw [parseParams_middles _ mids hmids, parseParams_trailing lp hlp.1]
    rw [hdrop]
    by_cases he : pfxEmitted m = true
    · rw [show pfxList m = [pfxTok m] from by simp [pfxList, he]]
      rw [show (([pfxTok m] ++ [m.command] ++ mids) ++ pyWords (':' :: lp))
          = pfxTok m :: m.command :: (mids ++ pyWords (':' :: lp)) from by simp]
      rw [decodeWords_pfx _ _ (pfxTok_head m) _ _, parsePfx_pfxTok m hsOk huOk hhOk, hparse]
      simp [decodedOf, he, hps, hcmdUp]
    · have h3 : pfxEmitted m = false := by simpa using he
      simp only [pfxEmitted, Bool.or_eq_false_iff] at h3
      rw [show pfxList m = [] from by simp [pfxList, he]]
      rw [show ((([] : List Str) ++ [m.command] ++ mids) ++ pyWords (':' :: lp))
          = m.command :: (mids ++ pyWords (':' :: lp)) from by simp]
      rw [decodeWords_nopfx _ _ hcmdColon, hparse]
      simp [decodedOf, he, hps, hcmdUp,
        not_truthy_none m.user huOk h3.1.2, not_truthy_none m.host hhOk h3.2]

example : Message.encode ⟨some (str "nick"), some (str "user"), some (str "host"),
    str "PRIVMSG", [str "#chan", str "hello world"]⟩
    = str ":nick!user@host PRIVMSG #chan :hello world" := by decide

example : decode (str ":nick!user@host PRIVMSG #chan :hello world")
    = Except.ok ⟨some (str "nick"), some (str "user"), some (str "host"),
        str "PRIVMSG", [str "#chan", str "hello world"]⟩ := by decide

/-- Claim C1, counterexample.  The claim states that decoding any line emitted by
the encoder yields a message whose re-encoding equals the original byte string.
It fails at the message `PRIVMSG #chan` with payload "a  b" (two spaces): decode
splits the line on spaces dropping empty runs, so the double space inside the
trailing parameter collapses and the re-encoding is "PRIVMSG #chan :a b", one byte
shorter than the emitted "PRIVMSG #chan :a  b". -/
theorem c1_roundtrip_counterexample :
    (decode (Message.encode
        ⟨none, none, none, str "PRIVMSG", [str "#chan", str "a  b"]⟩)).map Message.encode
      ≠ Except.ok (Message.encode
        ⟨none, none, none, str "PRIVMSG", [str "#chan", str "a  b"]⟩) := by
  decide

/-- Claim C1, amended.  Encode/decode round trip: for every well-formed message
(fields free of CR/LF/NUL; command and non-final parameters nonempty single tokens
not starting with ':'; prefix fields free of space, '@' and '!'; the final
parameter with no two consecutive spaces and no trailing space), decoding the
emitted line succeeds and yields a message whose re-encoding equals the original
byte string exactly. -/
theorem c1_roundtrip_amended (m : Message) (h : wellFormed m = true) :
    ∃ m2, decode (Message.encode m) = Except.ok m2 ∧ Message.encode m2 = Message.encode m :=
  ⟨decodedOf m, decode_encode_wf m h, encode_decodedOf m⟩

/-- Witness for C1 at a concrete well-formed message. -/
theorem c1_roundtrip_amended_witness :
    wellFormed ⟨some (str "irc.example"), none, none, str "001",
        [str "alice", str "Welcome home"]⟩ = true
      ∧ ∃ m2,
          decode (Message.encode ⟨some (str "irc.example"), none, none, str "001",
            [str "alice", str "Welcome home"]⟩) = Except.ok m2
          ∧ Message.encode m2
            = Message.encode ⟨some (str "irc.example"), none, none, str "001",
                [str "alice", str "Welcome home"]⟩ :=
  ⟨by decide, c1_roundtrip_amended _ (by decide)⟩

/-- Claim C8.  The claim states decode is total with InvalidMessage as its single
failure mode.  In fact the empty line (and any whitespace-only line) escapes the
"no command given" guard: after splitting, the token list is empty and the Python
expression `words[0].startswith(':')` raises an uncaught IndexError, not an
InvalidMessage.  A prefix-only line such as ":irc.example" does reach the intended
InvalidMessage("no command given") path, and an embedded NUL byte reaches the
InvalidMessage("Illegal character") path. -/
theorem c8_decode_eval :
    decode (str "") = Except.error DecodeErr.indexError
      ∧ decode (str " ") = Except.error DecodeErr.indexError
      ∧ decode (str ":irc.example")
        = Except.error (DecodeErr.invalid (str ":irc.example") "no command given")
      ∧ decode (str "PING\x00x")
        = Except.error (DecodeErr.invalid (str "PING\x00x") "Illegal character") := by
  decide

/-! ## Theorems: match-spec command criterion (C5) -/

/-- Claim C5.  The claim states that with a list-valued `command` match argument a
message matches iff its command equals at least one element (any-match), as the
function docstring's own example "Match a Nick or Mode message" also promises.
The loop actually requires EVERY element to pass: a NICK message fails the list
["NICK", "MODE"] because the MODE element string-compares unequal and returns
False.  Singleton lists behave as equality, and numeric specs compare by int
value, so a two-element list of distinct textual commands can never match. -/
theorem c5_command_list_eval :
    commandMatches [CmdSpec.strc (str "NICK"), CmdSpec.strc (str "MODE")] (str "NICK") = false
      ∧ commandMatches [CmdSpec.strc (str "NICK")] (str "NICK") = true
      ∧ commandMatches [CmdSpec.strc (str "MODE")] (str "NICK") = false
      ∧ commandMatches [CmdSpec.intc 353] (str "353") = true := by
  decide

/-! ## Theorems: ISUPPORT merge and lookup (C6) -/

theorem dictGet_dictInsert (k : Str) (v : PropVal) :
    ∀ l, dictGet k (dictInsert k v l) = some v
  | [] => by simp [dictInsert, dictGet]
  | (k', v') :: rest => by
    by_cases h : k' = k
    · simp [dictInsert, dictGet, h]
    · simp [dictInsert, dictGet, h, dictGet_dictInsert k v rest]

/-- Claim C6, counterexample.  Processing ':irc.example 005 alice -CHANTYPES :are
supported by this server' stores CHANTYPES with value None; the subsequent lookup
returns that None, not the default '#'.  (Only a key that is absent altogether
falls back to the default, as the third conjunct shows.) -/
theorem c6_isupport_counterexample :
    serverPropsGet
        (dictUpdate []
          (isupportProperties [str "alice", str "-CHANTYPES", str "are supported by this server"]))
        (str "CHANTYPES") ≠ some (PropVal.strv (str "#"))
      ∧ serverPropsGet
          (dictUpdate []
            (isupportProperties [str "alice", str "-CHANTYPES", str "are supported by this server"]))
          (str "CHANTYPES") = some PropVal.nonev
      ∧ serverPropsGet [] (str "CHANTYPES") = some (PropVal.strv (str "#")) := by
  decide

/-- Claim C6, amended.  A '-KEY' ISUPPORT token does not remove KEY from the
server properties: it stores KEY with the Python value None, and a subsequent
lookup of KEY returns that None rather than falling back to the documented
default.  This holds for any prior property state and any key free of '='. -/
theorem c6_isupport_amended (props : List (Str × PropVal)) (nick key trailer : Str)
    (h2 : '=' ∉ key) :
    serverPropsGet (dictUpdate props (isupportProperties [nick, '-' :: key, trailer])) key
      = some PropVal.nonev := by
  have hcontains : ¬('-' :: key).contains '=' = true := by
    intro hc
    rcases List.mem_cons.mp ((contains_iff_mem _ _).mp hc) with he | hm
    · exact absurd he (by decide)
    · exact h2 hm
  have hprops : isupportProperties [nick, '-' :: key, trailer] = [(key, PropVal.nonev)] := by
    simp [isupportProperties, h2, dictInsert]
  rw [hprops]
  show serverPropsGet (dictInsert key PropVal.nonev props) key = some PropVal.nonev
  rw [serverPropsGet, dictGet_dictInsert]

/-- Witness for C6 at the concrete '-CHANTYPES' token over a nonempty prior state. -/
theorem c6_isupport_amended_witness :
    ('=' ∉ str "CHANTYPES")
      ∧ serverPropsGet
          (dictUpdate [(str "CHANTYPES", PropVal.strv (str "#&"))]
            (isupportProperties [str "alice", '-' :: str "CHANTYPES", str "are supported"]))
          (str "CHANTYPES") = some PropVal.nonev :=
  ⟨by decide, c6_isupport_amended [(str "CHANTYPES", PropVal.strv (str "#&"))]
    (str "alice") (str "CHANTYPES") (str "are supported") (by decide)⟩

/-! ## Theorems: startup queue gating (C7) -/

/-- Claim C7, counterexample.  The claim states start() limits the send queue to
priority at most -2 so that only the registration messages are admitted.  The code
passes -1 to limit_to, so a priority -1 message (an automatic PONG reply) is also
admitted, although -1 is not at most -2 and PONGs are not registration messages. -/
theorem c7_reg_limit_counterexample :
    queueAdmits (some startRegistrationLimit) pongPriority = true
      ∧ ¬pongPriority ≤ registrationPriority := by
  decide

/-- Claim C7, amended.  During the registration handshake start() holds the send
queue limited to priority at most -1 (not -2): the registration messages at -2 and
automatic PONG replies at -1 are admitted, while every message of priority 0 or
above (control and user traffic) is held back; once the with-block exits the limit
is released and every priority is admitted again. -/
theorem c7_reg_limit_amended (p : Int) (h : 0 ≤ p) :
    queueAdmits (some startRegistrationLimit) registrationPriority = true
      ∧ queueAdmits (some startRegistrationLimit) pongPriority = true
      ∧ queueAdmits (some startRegistrationLimit) p = false
      ∧ queueAdmits none p = true := by
  refine ⟨by decide, by decide, ?_, rfl⟩
  simp only [queueAdmits, startRegistrationLimit, decide_eq_false_iff_not]
  omega

/-- Witness for C7 at priority 0 (the idle-PING/NICK control priority). -/
theorem c7_reg_limit_amended_witness :
    (0 : Int) ≤ 0
      ∧ (queueAdmits (some startRegistrationLimit) registrationPriority = true
          ∧ queueAdmits (some startRegistrationLimit) pongPriority = true
          ∧ queueAdmits (some startRegistrationLimit) 0 = false
          ∧ queueAdmits none 0 = true) :=
  ⟨le_refl 0, c7_reg_limit_amended 0 (le_refl 0)⟩

/-! ## Theorems: shared users_ready latch (C10) -/

theorem chanWorld_inst_none (ops : List ChanOp) :
    ∀ w : ChanWorld, (∀ c ∈ w.channels, c.usersReadyInstance = none) →
      ∀ c ∈ (runChanOps w ops).channels, c.usersReadyInstance = none := by
  induction ops with
  | nil => exact fun w hw => hw
  | cons op ops ih =>
    intro w hw
    refine ih (applyChanOp w op) ?_
    intro c hc
    cases op with
    | newChannel name =>
      rcases List.mem_append.mp hc with hm | hm
      · exact hw c hm
      · rcases List.mem_singleton.mp hm with rfl
        rfl
    | endOfNames chan => exact hw c hc
    | partClear chan => exact hw c hc

/-- Claim C10.  `users_ready` is a class-level attribute of girc `Channel`, shared
by every instance: no instance ever assigns its own slot, so after processing
ENDOFNAMES for any one channel (whose handler runs `self.users_ready.set()` on the
shared Event), `users_ready` is observed as set on every Channel object, including
channels that never received their own ENDOFNAMES. -/
theorem c10_users_ready_shared (ops : List ChanOp) (chanName : Str) (c : ChannelObj)
    (hc : c ∈ (runChanOps initialChanWorld (ops ++ [ChanOp.endOfNames chanName])).channels) :
    usersReadyObserved (runChanOps initialChanWorld (ops ++ [ChanOp.endOfNames chanName])) c
      = true := by
  have hrun : runChanOps initialChanWorld (ops ++ [ChanOp.endOfNames chanName])
      = applyChanOp (runChanOps initialChanWorld ops) (ChanOp.endOfNames chanName) := by
    simp [runChanOps, List.foldl_append]
  have hinst : c.usersReadyInstance = none := by
    refine chanWorld_inst_none _ initialChanWorld ?_ c hc
    intro c' hc'
    simp [initialChanWorld] at hc'
  rw [usersReadyObserved, hinst, hrun]
  rfl

/-- Witness for C10: two channels are created, ENDOFNAMES arrives for "#a" only,
and "#b" still observes the latch as set. -/
theorem c10_users_ready_shared_witness :
    (⟨str "#b", none⟩ : ChannelObj)
        ∈ (runChanOps initialChanWorld
            ([ChanOp.newChannel (str "#a"), ChanOp.newChannel (str "#b")]
              ++ [ChanOp.endOfNames (str "#a")])).channels
      ∧ usersReadyObserved
          (runChanOps initialChanWorld
            ([ChanOp.newChannel (str "#a"), ChanOp.newChannel (str "#b")]
              ++ [ChanOp.endOfNames (str "#a")]))
          ⟨str "#b", none⟩ = true :=
  ⟨by decide, c10_users_ready_shared _ _ _ (by decide)⟩

/-! ## Theorems: user-list build from NAMES (C4) and mode inclusion (C9) -/

/-- Claim C4.  The claim states every NAMREPLY token, including tokens with no
status prefix, is inserted, so that after ':irc.example 353 alice = #chan
:@bob +dave eve' the views are ops = \x7bbob\x7d, voiced = \x7bbob, dave\x7d and
users = \x7bbob, dave, eve\x7d.  The first two hold, but `recv_user_prefix`
initialises its mode set with `set('')`, which is the EMPTY set (not `\x7b''\x7d`),
so the unprefixed token 'eve' is inserted under no mode at all and users is only
\x7bbob, dave\x7d. -/
theorem c4_namreply_eval :
    (decode (str ":irc.example 353 alice = #chan :@bob +dave eve")).map Message.params
        = Except.ok [str "alice", str "=", str "#chan", str "@bob +dave eve"]
      ∧ (UserList.recv_user_list defaultUserList
            [str "alice", str "=", str "#chan", str "@bob +dave eve"]).map
          (fun ul => (ul.getItem (str "ops"), ul.getItem (str "voiced"), ul.getItem (str "users")))
        = Except.ok (some {str "bob"}, some {str "bob", str "dave"}, some {str "bob", str "dave"})
      ∧ (UserList.recv_user_list defaultUserList
            [str "alice", str "=", str "#chan", str "@bob +dave eve"]).map
          (fun ul => ul.getItem (str "users"))
        ≠ Except.ok (some {str "bob", str "dave", str "eve"}) := by
  refine ⟨by decide, by decide, by decide⟩

theorem unionUntil_mono (um : List (Str × Finset Str)) (item1 item2 : Str) :
    ∀ modes : List Str, item1 ∈ modes → item2 ∈ modes →
      idxOf item1 modes ≤ idxOf item2 modes →
      unionUntil um item1 modes ⊆ unionUntil um item2 modes
  | [], h1, _, _ => absurd h1 (List.not_mem_nil item1)
  | x :: ms, h1, h2, hle => by
    by_cases hx1 : x = item1
    · subst hx1
      rw [unionUntil, unionUntil, if_pos rfl]
      by_cases hx2 : x = item2
      · rw [if_pos hx2]
      · rw [if_neg hx2]
        exact Finset.union_subset_union (Finset.Subset.refl _) (Finset.empty_subset _)
    · by_cases hx2 : x = item2
      · exfalso
        subst hx2
        rw [show idxOf x (x :: ms) = 0 from by simp [idxOf],
          show idxOf item1 (x :: ms) = idxOf item1 ms + 1 from by simp [idxOf, hx1]] at hle
        exact Nat.not_succ_le_zero _ hle
      · have h1' : item1 ∈ ms := by
          rcases List.mem_cons.mp h1 with he | hm
          · exact absurd he.symm hx1
          · exact hm
        have h2' : item2 ∈ ms := by
          rcases List.mem_cons.mp h2 with he | hm
          · exact absurd he.symm hx2
          · exact hm
        have hle' : idxOf item1 ms ≤ idxOf item2 ms := by
          rw [show idxOf item1 (x :: ms) = idxOf item1 ms + 1 from by simp [idxOf, hx1],
            show idxOf item2 (x :: ms) = idxOf item2 ms + 1 from by simp [idxOf, hx2]] at hle
          exact Nat.succ_le_succ_iff.mp hle
        rw [unionUntil, unionUntil, if_neg hx1, if_neg hx2]
        exact Finset.union_subset_union (Finset.Subset.refl _)
          (unionUntil_mono um item1 item2 ms h1' h2' hle')

theorem getItem_of_mem (ul : UserList) (m : Str) (hm : m ∈ ul.modes) :
    ul.getItem m = some (unionUntil ul.user_map m ul.modes) := by
  rw [UserList.getItem, UserList.resolve_name, if_pos hm]

/-- Claim C9.  Mode inclusion: for every UserList state and rank modes with `m'`
ranked above `m`, the lookup `[m']` is a subset of `[m]`, and `only(m)` is a
subset of `[m]`. -/
theorem c9_mode_inclusion (ul : UserList) (m' m : Str) (h : rankedAbove ul m' m) :
    (∀ A B, ul.getItem m' = some A → ul.getItem m = some B → A ⊆ B)
      ∧ ∀ C B, ul.only m = some C → ul.getItem m = some B → C ⊆ B := by
  obtain ⟨hm', hm, hlt⟩ := h
  constructor
  · intro A B hA hB
    rw [getItem_of_mem ul m' hm'] at hA
    rw [getItem_of_mem ul m hm] at hB
    cases hA
    cases hB
    exact unionUntil_mono ul.user_map m' m ul.modes hm' hm (Nat.le_of_lt hlt)
  · intro C B hC hB
    cases hres : ul.resolve_name m with
    | none =>
      simp only [UserList.only, hres] at hC
      exact absurd hC (by simp)
    | some m2 =>
      simp only [UserList.only, hres] at hC
      by_cases hmem : m2 ∈ ul.modes
      · simp only [hmem, if_true, hB] at hC
        cases hhi : (if 0 < idxOf m2 ul.modes then ul.modes.get? (idxOf m2 ul.modes - 1)
            else none) with
        | none =>
          simp only [hhi] at hC
          cases hC
          exact Finset.Subset.refl _
        | some hmode =>
          simp only [hhi] at hC
          cases hgi : ul.getItem hmode with
          | none =>
            simp only [hgi] at hC
            exact absurd hC (by simp)
          | some hset =>
            simp only [hgi] at hC
            cases hC
            exact Finset.sdiff_subset
      · simp only [hmem, if_false] at hC
        exact absurd hC (by simp)

/-- Witness for C9 on a populated default user list: ops is above voiced, the op
set is included in the voiced view, and only(voiced) is included in the voiced
view. -/
theorem c9_mode_inclusion_witness :
    rankedAbove sampleUserList (str "o") (str "v")
      ∧ ({str "alice"} : Finset Str) ⊆ {str "alice", str "bob"}
      ∧ ({str "bob"} : Finset Str) ⊆ {str "alice", str "bob"} :=
  ⟨by decide,
    (c9_mode_inclusion sampleUserList (str "o") (str "v") (by decide)).1
      {str "alice"} {str "alice", str "bob"} (by decide) (by decide),
    (c9_mode_inclusion sampleUserList (str "o") (str "v") (by decide)).2
      {str "bob"} {str "alice", str "bob"} (by decide) (by decide)⟩

/-! ## Theorems: dependency cycles stop the client (C3) -/

/-- Claim C3, counterexample.  The claim states a dependency cycle only skips the
affected message with a logged error, dispatch of subsequent messages continues
and the connection stays up.  With two mutually-ordered handlers registered, two
valid inbound lines arrive: the cycle check raises on the first message, nothing
catches the ValueError in `_process`, the receive loop's `except Exception`
fires, zero messages are dispatched and the client is stopped with the error. -/
theorem c3_cycle_counterexample :
    hasCycleError cyclicHandlers = true
      ∧ runRecvLines cyclicHandlers [str "PING :a", str "PING :b"] ⟨0, false⟩
          = ⟨0, true⟩
      ∧ runRecvLines [] [str "PING :a", str "PING :b"] ⟨0, false⟩ = ⟨2, false⟩ := by
  refine ⟨by decide, by decide, by decide⟩

/-- Claim C3, amended.  When the per-message handler graph has a cycle, the
ValueError raised by the cycle check escapes `_process` (which catches only
InvalidMessage): on the first decodable line the receive loop stops the client
with the error, no message of the batch is dispatched and the remaining lines are
never processed — the cycle takes the connection down rather than skipping the
message. -/
theorem c3_cycle_amended (hs : List HandlerMeta) (hcyc : hasCycleError hs = true)
    (line : Str) (rest : List Str) (st : RecvState) (m : Message)
    (hne : pyStripWS line ≠ []) (hdec : decode (pyStripWS line) = Except.ok m) :
    runRecvLines hs (line :: rest) st = { st with stoppedWithError := true } := by
  have hpl : processLine hs line = Except.error () := by
    simp only [processLine, hne, if_false, hdec, dispatchCycleCheck, hcyc, if_true]
  rw [runRecvLines, hpl]

/-- Witness for C3: the two-handler cycle on a concrete PING line. -/
theorem c3_cycle_amended_witness :
    hasCycleError cyclicHandlers = true
      ∧ pyStripWS (str "PING :a") ≠ []
      ∧ decode (pyStripWS (str "PING :a"))
          = Except.ok ⟨none, none, none, str "PING", [str "a"]⟩
      ∧ runRecvLines cyclicHandlers [str "PING :a", str "PING :b"] ⟨5, false⟩ = ⟨5, true⟩ :=
  ⟨by decide, by decide, by decide,
    c3_cycle_amended cyclicHandlers (by decide) (str "PING :a") [str "PING :b"] ⟨5, false⟩
      ⟨none, none, none, str "PING", [str "a"]⟩ (by decide) (by decide)⟩

/-! ## Theorems: the sync barrier (C2) -/

theorem validAt (hs : List HandlerMeta) (tr : List TraceEv) (hv : validTrace hs tr)
    (a : Nat) (e : TraceEv) (ha : tr.get? a = some e) : evOk hs tr a e := by
  obtain ⟨h, he⟩ := List.get?_eq_some.mp ha
  have := hv a h
  rwa [he] at this

theorem retBefore (hs : List HandlerMeta) (tr : List TraceEv) (hv : validTrace hs tr) :
    ∀ (k i b : Nat), tr.get? b = some (TraceEv.start (i + k + 1)) →
      ∃ c, c < b ∧ tr.get? c = some (TraceEv.ret i)
  | 0, i, b, hb => by
    have h := validAt hs tr hv b _ hb
    simpa [evOk] using h
  | k + 1, i, b, hb => by
    have h := validAt hs tr hv b _ hb
    have h' : ∃ c, c < b ∧ tr.get? c = some (TraceEv.ret (i + k + 1)) := by
      have he : i + (k + 1) + 1 = (i + k + 1) + 1 := by omega
      rw [he] at h
      simpa [evOk] using h
    obtain ⟨c, hcb, hc⟩ := h'
    have hr := validAt hs tr hv c _ hc
    obtain ⟨⟨d, hdc, hd⟩, _⟩ := hr
    obtain ⟨e', hed, he'⟩ := retBefore hs tr hv k i d hd
    exact ⟨e', by omega, he'⟩

/-- Claim C2.  Sync barrier: in every trace the client can produce, for inbound
messages i before j, no handler is invoked for message j until every registered
handler declared with sync=true (its `before` set contains the 'sync' sentinel)
has completed for message i: the per-message dispatch does not return to the read
loop until all such handlers have finished, and the read loop is sequential. -/
theorem c2_sync_barrier (hs : List HandlerMeta) (tr : List TraceEv) (hv : validTrace hs tr)
    (i j hid hid' a : Nat) (hij : i < j) (hhid : hid < hs.length)
    (hsync : isSync (hs.getD hid default) = true)
    (ha : tr.get? a = some (TraceEv.invoke j hid')) :
    ∃ b, b < a ∧ tr.get? b = some (TraceEv.complete i hid) := by
  have h1 := validAt hs tr hv a _ ha
  obtain ⟨b1, hb1a, hb1⟩ := h1
  obtain ⟨k, hk⟩ : ∃ k, j = i + k + 1 := ⟨j - i - 1, by omega⟩
  rw [hk] at hb1
  obtain ⟨c, hcb1, hc⟩ := retBefore hs tr hv k i b1 hb1
  have hr := validAt hs tr hv c _ hc
  obtain ⟨_, hsyncAll⟩ := hr
  obtain ⟨b, hbc, hbev⟩ := hsyncAll hid hhid hsync
  exact ⟨b, by omega, hbev⟩

/-- Witness for C2: one sync handler, a valid trace of two messages; the invoke
of message 1 at position 5 is preceded by the completion of the sync handler for
message 0 (at position 2). -/
theorem c2_sync_barrier_witness :
    validTrace [⟨[HNode.sync], []⟩]
        [TraceEv.start 0, TraceEv.invoke 0 0, TraceEv.complete 0 0, TraceEv.ret 0,
          TraceEv.start 1, TraceEv.invoke 1 0]
      ∧ ∃ b, b < 5
          ∧ [TraceEv.start 0, TraceEv.invoke 0 0, TraceEv.complete 0 0, TraceEv.ret 0,
              TraceEv.start 1, TraceEv.invoke 1 0].get? b = some (TraceEv.complete 0 0) :=
  ⟨by decide,
    c2_sync_barrier [⟨[HNode.sync], []⟩]
      [TraceEv.start 0, TraceEv.invoke 0 0, TraceEv.complete 0 0, TraceEv.ret 0,
        TraceEv.start 1, TraceEv.invoke 1 0]
      (by decide) 0 1 0 0 5 (by decide) (by decide) (by decide) (by decide)⟩
